import Mathlib

/-!
Shallow embedding of `src/graph.py` (the directed-graph engine of the
music_graph repository) and proofs about its operations.

Python dictionaries are modelled as association lists that preserve
insertion order (as CPython dicts do): `dict[k] = v` replaces the value in
place when `k` is already a key and appends `(k, v)` otherwise.
Node names are an arbitrary type with decidable equality.
`path_exists` returns `Option (List α)`: `some p` models returning the
list `p`, `none` models the `False` sentinel.
-/

namespace MusicGraph

variable {α : Type} [DecidableEq α]

/-- `class Node`: a named vertex. -/
structure Node (α : Type) where
  name : α
deriving DecidableEq, Repr

/-- `class Edge`: a directed edge from the node named `start` to the node
named `end`, with a `meaning` label and a numeric `weight`. -/
structure Edge (α : Type) where
  start : α
  «end» : α
  meaning : String
  weight : Int
deriving DecidableEq, Repr

/-- Python `d.get(k, dflt)` on an insertion-ordered dict. -/
def dictGet (d : List (α × β)) (k : α) (dflt : β) : β :=
  match d.find? (fun p => p.1 = k) with
  | some p => p.2
  | none => dflt

/-- Python `d.update({k : v})` (i.e. `d[k] = v`) on an insertion-ordered
dict: replace in place when the key is present, append otherwise. -/
def dictUpdate (d : List (α × β)) (k : α) (v : β) : List (α × β) :=
  if k ∈ d.map Prod.fst then
    d.map (fun p => if p.1 = k then (k, v) else p)
  else d ++ [(k, v)]

/-- `class Graph`: `nodes` maps names to Nodes, `edges` maps a start name
to the bucket of edges leaving it, and `num_nodes` / `num_edges` are the
incrementally maintained counters. -/
structure Graph (α : Type) where
  nodes : List (α × Node α)
  edges : List (α × List (Edge α))
  num_nodes : Nat
  num_edges : Nat
deriving DecidableEq, Repr

/-- `Graph.add_node`: reject when the name is already a key and updates
are not allowed; otherwise store the node and increment `num_nodes`. -/
def add_node (g : Graph α) (node : Node α) (allow_update : Bool) : Graph α :=
  if node.name ∈ g.nodes.map Prod.fst ∧ ¬ allow_update then g
  else { g with
          nodes := dictUpdate g.nodes node.name node,
          num_nodes := g.num_nodes + 1 }

/-- `Graph.add_edge`: reject when either endpoint is not a stored node
name; otherwise append the edge to the bucket of its start name and
increment `num_edges`. -/
def add_edge (g : Graph α) (edge : Edge α) : Graph α :=
  if edge.start ∉ g.nodes.map Prod.fst then g
  else if edge.«end» ∉ g.nodes.map Prod.fst then g
  else { g with
          edges := dictUpdate g.edges edge.start
                    (dictGet g.edges edge.start [] ++ [edge]),
          num_edges := g.num_edges + 1 }

/-- The empty graph that `Graph.__init__` starts from. -/
def emptyGraph : Graph α := ⟨[], [], 0, 0⟩

/-- `Graph.__init__(nodes, edges)`: start empty, `add_node` each node in
order, then `add_edge` each edge in order. -/
def graphInit (nodes : List (Node α)) (edges : List (Edge α)) : Graph α :=
  edges.foldl add_edge (nodes.foldl (fun g n => add_node g n false) emptyGraph)

/-- `Graph.get_all_nodes`: the stored Node values, in insertion order. -/
def get_all_nodes (g : Graph α) : List (Node α) :=
  g.nodes.map Prod.snd

/-- `Graph.get_all_edges`: concatenate all edge buckets in map order
(`ans = []; for v in self.edges.values(): ans += v`). -/
def get_all_edges (g : Graph α) : List (Edge α) :=
  g.edges.foldl (fun ans v => ans ++ v.2) []

/-- The inner `for n in options` loop of `path_exists`, for the popped
path `front :: rest` (most recently reached node at the front).  Returns
`(some p, _)` when an option equals `end` (the loop returns the reversed
path immediately), otherwise `(none, q)` where `q` is the queue with all
unvisited extensions appended at the back. -/
def scanOptions (endN : α) (front : α) (rest : List α) :
    List α → List (α × List α) → Option (List α) × List (α × List α)
  | [], acc => (none, acc)
  | n :: ns, acc =>
    if n = endN then (some ((front :: rest).reverse), acc)
    else if n ∈ front :: rest then scanOptions endN front rest ns acc
    else scanOptions endN front rest ns (acc ++ [(n, front :: rest)])

/-- The `while len(queue) > 0` worklist loop of `path_exists`.  A queue
entry `(front, rest)` models the Python list `[front] + rest` (partial
path, newest node first).  The `fuel` argument counts loop iterations
still allowed; `none` means fuel ran out (we prove it never does for the
fuel bound used by `path_exists`). -/
def pathExistsLoop (g : Graph α) (endN : α) :
    Nat → List (α × List α) → Option (Option (List α))
  | 0, _ => none
  | _ + 1, [] => some none
  | fuel + 1, (front, rest) :: queue =>
    match scanOptions endN front rest
            ((dictGet g.edges front []).map Edge.«end») queue with
    | (some p, _) => some (some p)
    | (none, queue') => pathExistsLoop g endN fuel queue'

/-- Fuel that provably suffices for `pathExistsLoop` to finish: with `B`
the number of stored edges and `N` the number of distinct names that can
ever occur on a partial path, `(B+1) ^ (N-1) + 1` bounds the number of
loop iterations. -/
def graphFuel (g : Graph α) (start : α) : Nat :=
  ((get_all_edges g).length + 1) ^
    ((start :: (get_all_edges g).map Edge.«end»).dedup.length - 1) + 1

/-- `Graph.path_exists(start, end)`: run the worklist loop starting from
the single path `[start]`.  `some p` is a returned path, `none` is the
`False` sentinel. -/
def path_exists (g : Graph α) (start endN : α) : Option (List α) :=
  (pathExistsLoop g endN (graphFuel g start) [(start, [])]).getD none

/-- The inner `for n2 in g` loop of `show_subgraphs`: does `n1` reach or
is it reached from some member of the group?  (A returned path is always
a nonempty list, so Python truthiness is `isSome` here.) -/
def connectsToGroup (g : Graph α) (n1 : α) (grp : List α) : Bool :=
  grp.any (fun n2 =>
    (path_exists g n1 n2).isSome || (path_exists g n2 n1).isSome)

/-- The `for g in ans` loop of `show_subgraphs`: append `n1` to the first
group it connects to (`some` = found a group), `none` when no group
matches. -/
def addToGroups (g : Graph α) (n1 : α) :
    List (List α) → Option (List (List α))
  | [] => none
  | grp :: rest =>
    if connectsToGroup g n1 grp then some ((grp ++ [n1]) :: rest)
    else
      match addToGroups g n1 rest with
      | some rest' => some (grp :: rest')
      | none => none

/-- One iteration of the outer `for n1 in all_nodes` loop of
`show_subgraphs`: put `n1` into the first group it connects to, or into a
fresh singleton group. -/
def subgraphStep (g : Graph α) (ans : List (List α)) (n1 : Node α) :
    List (List α) :=
  match addToGroups g n1.name ans with
  | some ans' => ans'
  | none => ans ++ [[n1.name]]

/-- `Graph.show_subgraphs`: process the stored nodes in order. -/
def show_subgraphs (g : Graph α) : List (List α) :=
  (get_all_nodes g).foldl (subgraphStep g) []

/-- A stored edge from `a` to `b`: some edge in `get_all_edges` has
`start = a` and `end = b`. -/
def HasEdge (g : Graph α) (a b : α) : Prop :=
  ∃ e ∈ get_all_edges g, e.start = a ∧ e.«end» = b

/-- Undirected adjacency induced by the stored edges. -/
def UndirAdj (g : Graph α) (a b : α) : Prop :=
  HasEdge g a b ∨ HasEdge g b a

/-- Weak connectivity: connectivity in the underlying undirected graph
(reflexive-transitive closure of undirected adjacency). -/
def UndirConnected (g : Graph α) (a b : α) : Prop :=
  Relation.ReflTransGen (UndirAdj g) a b

/-- `a` and `b` appear together in some group of a `show_subgraphs`
result. -/
def SameGroup (gs : List (List α)) (a b : α) : Prop :=
  ∃ grp ∈ gs, a ∈ grp ∧ b ∈ grp

/-- Graph states reachable through the class API: start empty (as
`__init__` does) and apply `add_node` / `add_edge` in any order.  Any
graph built by `Graph(nodes, edges)` followed by further inserts is of
this shape. -/
inductive Reachable : Graph α → Prop
  | empty : Reachable emptyGraph
  | node (g : Graph α) (n : Node α) (u : Bool) :
      Reachable g → Reachable (add_node g n u)
  | edge (g : Graph α) (e : Edge α) :
      Reachable g → Reachable (add_edge g e)

/-- Shorthand for building a fixture edge (defaults `meaning="EXAMPLE"`,
`weight=1` from the Python constructor). -/
def mkEdge (a b : Nat) : Edge Nat := ⟨a, b, "EXAMPLE", 1⟩

/-- The first fixture graph `G1`: nodes `0..6`, edges
`0→1, 1→2, 2→3, 3→0, 4→5, 6→4`. -/
def G1 : Graph Nat :=
  graphInit ((List.range 7).map Node.mk)
    [mkEdge 0 1, mkEdge 1 2, mkEdge 2 3, mkEdge 3 0, mkEdge 4 5, mkEdge 6 4]

/-- The second fixture graph `G2`: nodes `0..9`, edges
`9→1, 1→2, 5→9, 4→0, 6→4, 7→3`. -/
def G2 : Graph Nat :=
  graphInit ((List.range 10).map Node.mk)
    [mkEdge 9 1, mkEdge 1 2, mkEdge 5 9, mkEdge 4 0, mkEdge 6 4, mkEdge 7 3]

/-- A three-node graph with edges `1→2` and `0→2`: nodes 0, 1, 2 are all
weakly connected through node 2, yet `show_subgraphs` places 1 in a
different group from 0 and 2. -/
def CG : Graph Nat :=
  graphInit [⟨0⟩, ⟨1⟩, ⟨2⟩] [mkEdge 1 2, mkEdge 0 2]

/-- Stored node for key `k`, i.e. Python `self.nodes[k]` when present. -/
def lookupNode (g : Graph α) (k : α) : Option (Node α) :=
  (g.nodes.find? (fun p => p.1 = k)).map Prod.snd

/-! ### Dictionary lemmas -/

theorem keys_dictUpdate_mem {d : List (α × β)} {k : α} (v : β)
    (h : k ∈ d.map Prod.fst) :
    (dictUpdate d k v).map Prod.fst = d.map Prod.fst := by
  simp only [dictUpdate, if_pos h, List.map_map]
  apply List.map_congr_left
  intro p _
  by_cases hp : p.1 = k <;> simp [hp, Function.comp]

theorem keys_dictUpdate_not_mem {d : List (α × β)} {k : α} (v : β)
    (h : k ∉ d.map Prod.fst) :
    (dictUpdate d k v).map Prod.fst = d.map Prod.fst ++ [k] := by
  simp [dictUpdate, if_neg h]

theorem mem_keys_dictUpdate {d : List (α × β)} {k : α} {v : β} {x : α} :
    x ∈ (dictUpdate d k v).map Prod.fst ↔ x ∈ d.map Prod.fst ∨ x = k := by
  by_cases h : k ∈ d.map Prod.fst
  · rw [keys_dictUpdate_mem v h]
    constructor
    · exact Or.inl
    · rintro (hx | rfl) <;> assumption
  · rw [keys_dictUpdate_not_mem v h]
    simp

theorem nodup_keys_dictUpdate {d : List (α × β)} {k : α} (v : β)
    (h : (d.map Prod.fst).Nodup) :
    ((dictUpdate d k v).map Prod.fst).Nodup := by
  by_cases hk : k ∈ d.map Prod.fst
  · rw [keys_dictUpdate_mem v hk]; exact h
  · rw [keys_dictUpdate_not_mem v hk]
    exact h.append (List.nodup_singleton k)
      ((List.disjoint_singleton).mpr hk)

theorem mem_dictUpdate {d : List (α × β)} {k : α} {v : β} {p : α × β}
    (h : p ∈ dictUpdate d k v) : p = (k, v) ∨ p ∈ d := by
  unfold dictUpdate at h
  by_cases hk : k ∈ d.map Prod.fst
  · rw [if_pos hk] at h
    obtain ⟨q, hq, hqe⟩ := List.mem_map.mp h
    by_cases hq1 : q.1 = k
    · simp only [if_pos hq1] at hqe; exact Or.inl hqe.symm
    · simp only [if_neg hq1] at hqe; exact Or.inr (hqe ▸ hq)
  · rw [if_neg hk] at h
    rcases List.mem_append.mp h with h' | h'
    · exact Or.inr h'
    · exact Or.inl (List.mem_singleton.mp h')

theorem find?_map_update {d : List (α × β)} {k : α} (v : β)
    (h : k ∈ d.map Prod.fst) :
    (d.map (fun p => if p.1 = k then (k, v) else p)).find?
      (fun p => p.1 = k) = some (k, v) := by
  induction d with
  | nil => simp at h
  | cons q d ih =>
    by_cases hq : q.1 = k
    · simp [List.find?, hq]
    · have hk : k ∈ d.map Prod.fst := by
        rw [List.map_cons, List.mem_cons] at h
        rcases h with h | h
        · exact absurd h.symm hq
        · exact h
      rw [List.map_cons, if_neg hq,
        List.find?_cons_of_neg _ (by simpa using hq)]
      exact ih hk

theorem find?_append_single {d : List (α × β)} {k : α} (v : β)
    (h : k ∉ d.map Prod.fst) :
    (d ++ [(k, v)]).find? (fun p => p.1 = k) = some (k, v) := by
  induction d with
  | nil => simp [List.find?]
  | cons q d ih =>
    have hq : ¬ q.1 = k := by
      intro he
      exact h (by rw [List.map_cons, ← he]; exact List.mem_cons_self _ _)
    have h' : k ∉ d.map Prod.fst := by
      intro hm
      exact h (by rw [List.map_cons]; exact List.mem_cons_of_mem _ hm)
    rw [List.cons_append, List.find?_cons_of_neg _ (by simpa using hq)]
    exact ih h'

theorem find?_dictUpdate {d : List (α × β)} {k : α} (v : β) :
    (dictUpdate d k v).find? (fun p => p.1 = k) = some (k, v) := by
  unfold dictUpdate
  by_cases h : k ∈ d.map Prod.fst
  · rw [if_pos h]; exact find?_map_update v h
  · rw [if_neg h]; exact find?_append_single v h

theorem length_dictUpdate_mem {d : List (α × β)} {k : α} (v : β)
    (h : k ∈ d.map Prod.fst) :
    (dictUpdate d k v).length = d.length := by
  simp [dictUpdate, if_pos h]

theorem dictGet_mem {d : List (α × β)} {k : α} {dflt : β}
    (h : dictGet d k dflt ≠ dflt) :
    ∃ p ∈ d, p.1 = k ∧ dictGet d k dflt = p.2 := by
  unfold dictGet at *
  cases hf : d.find? (fun q => q.1 = k) with
  | none => rw [hf] at h; exact absurd rfl h
  | some q =>
    have hpred := List.find?_some hf
    exact ⟨q, List.mem_of_find?_eq_some hf, of_decide_eq_true hpred, rfl⟩

/-! ### get_all_edges as a flatten -/

theorem foldl_append_eq {γ δ : Type} (l : List (γ × List δ)) (acc : List δ) :
    l.foldl (fun ans v => ans ++ v.2) acc = acc ++ (l.map Prod.snd).flatten := by
  induction l generalizing acc with
  | nil => simp
  | cons p l ih => simp [ih, List.append_assoc]

theorem get_all_edges_eq (g : Graph α) :
    get_all_edges g = (g.edges.map Prod.snd).flatten := by
  simp [get_all_edges, foldl_append_eq]

theorem mem_get_all_edges {g : Graph α} {e : Edge α} :
    e ∈ get_all_edges g ↔ ∃ p ∈ g.edges, e ∈ p.2 := by
  rw [get_all_edges_eq]
  simp only [List.mem_flatten, List.mem_map]
  constructor
  · rintro ⟨l, ⟨p, hp, rfl⟩, he⟩; exact ⟨p, hp, he⟩
  · rintro ⟨p, hp, he⟩; exact ⟨p.2, ⟨p, hp, rfl⟩, he⟩

theorem mem_dictGet_edges {g : Graph α} {k : α} {e : Edge α}
    (h : e ∈ dictGet g.edges k []) :
    ∃ p ∈ g.edges, p.1 = k ∧ e ∈ p.2 := by
  unfold dictGet at h
  cases hf : g.edges.find? (fun q => q.1 = k) with
  | none => rw [hf] at h; cases h
  | some q =>
    rw [hf] at h
    have hpred := List.find?_some hf
    exact ⟨q, List.mem_of_find?_eq_some hf, of_decide_eq_true hpred, h⟩

/-! ### The reachable-state invariant -/

/-- Structural invariant of every graph reachable through the API:
node keys are distinct, each stored node is keyed by its own name, each
bucket holds only edges starting at its key, and every stored edge has
both endpoints among the node keys. -/
def StateWF (g : Graph α) : Prop :=
  (g.nodes.map Prod.fst).Nodup ∧
  (∀ p ∈ g.nodes, (p.2 : Node α).name = p.1) ∧
  (∀ p ∈ g.edges, ∀ e ∈ p.2,
    e.start = p.1 ∧ e.start ∈ g.nodes.map Prod.fst ∧
    e.«end» ∈ g.nodes.map Prod.fst)

theorem stateWF_add_node {g : Graph α} (h : StateWF g) (n : Node α)
    (u : Bool) : StateWF (add_node g n u) := by
  obtain ⟨h1, h2, h3⟩ := h
  unfold add_node
  by_cases hc : n.name ∈ g.nodes.map Prod.fst ∧ ¬ u
  · rw [if_pos hc]; exact ⟨h1, h2, h3⟩
  · rw [if_neg hc]
    refine ⟨nodup_keys_dictUpdate n h1, ?_, ?_⟩
    · intro p hp
      rcases mem_dictUpdate hp with rfl | hp'
      · rfl
      · exact h2 p hp'
    · intro p hp e he
      obtain ⟨he1, he2, he3⟩ := h3 p hp e he
      exact ⟨he1, mem_keys_dictUpdate.mpr (Or.inl he2),
        mem_keys_dictUpdate.mpr (Or.inl he3)⟩

theorem stateWF_add_edge {g : Graph α} (h : StateWF g) (e : Edge α) :
    StateWF (add_edge g e) := by
  obtain ⟨h1, h2, h3⟩ := h
  unfold add_edge
  by_cases hs : e.start ∉ g.nodes.map Prod.fst
  · rw [if_pos hs]; exact ⟨h1, h2, h3⟩
  rw [if_neg hs]
  by_cases he : e.«end» ∉ g.nodes.map Prod.fst
  · rw [if_pos he]; exact ⟨h1, h2, h3⟩
  rw [if_neg he]
  push_neg at hs he
  refine ⟨h1, h2, ?_⟩
  intro p hp e' he'
  rcases mem_dictUpdate hp with rfl | hp'
  · rcases List.mem_append.mp he' with hb | hb
    · obtain ⟨q, hq, hq1, hqe⟩ := mem_dictGet_edges hb
      obtain ⟨g1, g2, g3⟩ := h3 q hq e' hqe
      exact ⟨g1.trans hq1, g2, g3⟩
    · rcases List.mem_singleton.mp hb with rfl
      exact ⟨rfl, hs, he⟩
  · exact h3 p hp' e' he'

theorem stateWF_of_reachable {g : Graph α} (h : Reachable g) : StateWF g := by
  induction h with
  | empty => refine ⟨List.nodup_nil, ?_, ?_⟩ <;> intro p hp <;> cases hp
  | node g n u _ ih => exact stateWF_add_node ih n u
  | edge g e _ ih => exact stateWF_add_edge ih e

theorem reachable_foldl_add_node {g : Graph α} (h : Reachable g)
    (ns : List (Node α)) :
    Reachable (ns.foldl (fun g n => add_node g n false) g) := by
  induction ns generalizing g with
  | nil => exact h
  | cons n ns ih => exact ih (Reachable.node g n false h)

theorem reachable_foldl_add_edge {g : Graph α} (h : Reachable g)
    (es : List (Edge α)) : Reachable (es.foldl add_edge g) := by
  induction es generalizing g with
  | nil => exact h
  | cons e es ih => exact ih (Reachable.edge g e h)

theorem reachable_graphInit (ns : List (Node α)) (es : List (Edge α)) :
    Reachable (graphInit ns es) :=
  reachable_foldl_add_edge (reachable_foldl_add_node Reachable.empty ns) es

/-! ### Characterizing one step of the search loop -/

/-- The extensions the inner loop appends for popped path `front :: rest`
when no option equals the target. -/
def extsOf (front : α) (rest : List α) (opts : List α) :
    List (α × List α) :=
  (opts.filter (fun n => decide (n ∉ front :: rest))).map
    (fun n => (n, front :: rest))

theorem extsOf_cons_mem {front : α} {rest : List α} {n : α} (ns : List α)
    (h : n ∈ front :: rest) :
    extsOf front rest (n :: ns) = extsOf front rest ns := by
  unfold extsOf
  rw [List.filter_cons, decide_eq_false (not_not_intro h)]
  simp

theorem extsOf_cons_not_mem {front : α} {rest : List α} {n : α}
    (ns : List α) (h : n ∉ front :: rest) :
    extsOf front rest (n :: ns) =
      (n, front :: rest) :: extsOf front rest ns := by
  unfold extsOf
  rw [List.filter_cons, decide_eq_true h]
  simp

theorem mem_extsOf {front : α} {rest opts : List α} {p : α × List α}
    (h : p ∈ extsOf front rest opts) :
    ∃ n ∈ opts, n ∉ front :: rest ∧ p = (n, front :: rest) := by
  unfold extsOf at h
  obtain ⟨n, hn, rfl⟩ := List.mem_map.mp h
  rw [List.mem_filter] at hn
  exact ⟨n, hn.1, of_decide_eq_true hn.2, rfl⟩

theorem scanOptions_none_inv {endN front : α} {rest opts : List α}
    {acc q' : List (α × List α)}
    (h : scanOptions endN front rest opts acc = (none, q')) :
    endN ∉ opts ∧ q' = acc ++ extsOf front rest opts := by
  induction opts generalizing acc with
  | nil =>
    simp only [scanOptions, Prod.mk.injEq] at h
    simp [extsOf, h.2.symm]
  | cons n ns ih =>
    by_cases hne : n = endN
    · simp only [scanOptions, if_pos hne, Prod.mk.injEq] at h
      exact absurd h.1 (by simp)
    · simp only [scanOptions, if_neg hne] at h
      by_cases hmem : n ∈ front :: rest
      · rw [if_pos hmem] at h
        obtain ⟨h1, h2⟩ := ih h
        refine ⟨?_, ?_⟩
        · intro hc
          rcases List.mem_cons.mp hc with he | hc'
          · exact hne he.symm
          · exact h1 hc'
        · rw [extsOf_cons_mem ns hmem]; exact h2
      · rw [if_neg hmem] at h
        obtain ⟨h1, h2⟩ := ih h
        refine ⟨?_, ?_⟩
        · intro hc
          rcases List.mem_cons.mp hc with he | hc'
          · exact hne he.symm
          · exact h1 hc'
        · rw [extsOf_cons_not_mem ns hmem]
          rw [List.append_assoc, List.singleton_append] at h2
          exact h2

theorem scanOptions_found_inv {endN front : α} {rest opts : List α}
    {acc q' : List (α × List α)} {p : List α}
    (h : scanOptions endN front rest opts acc = (some p, q')) :
    p = (front :: rest).reverse ∧ endN ∈ opts := by
  induction opts generalizing acc with
  | nil => simp [scanOptions] at h
  | cons n ns ih =>
    by_cases hne : n = endN
    · simp only [scanOptions, if_pos hne, Prod.mk.injEq,
        Option.some.injEq] at h
      exact ⟨h.1.symm, by simp [hne]⟩
    · simp only [scanOptions, if_neg hne] at h
      by_cases hmem : n ∈ front :: rest
      · rw [if_pos hmem] at h
        obtain ⟨h1, h2⟩ := ih h
        exact ⟨h1, List.mem_cons_of_mem _ h2⟩
      · rw [if_neg hmem] at h
        obtain ⟨h1, h2⟩ := ih h
        exact ⟨h1, List.mem_cons_of_mem _ h2⟩

/-! ### Termination of the search loop -/

/-- Weight of a partial path: shrinks (exponentially) as the path grows,
so that replacing a path with at most `B` strictly longer extensions
shrinks the total queue weight. -/
def pathWeight (B N : Nat) (p : α × List α) : Nat :=
  (B + 1) ^ (N - (p.1 :: p.2).length)

/-- Total weight of the worklist. -/
def queueWeight (B N : Nat) (q : List (α × List α)) : Nat :=
  (q.map (pathWeight B N)).sum

/-- Worklist invariant: every queued partial path is duplicate-free (the
cycle guard) and draws its names from the finite list `A`. -/
def QInv (A : List α) (q : List (α × List α)) : Prop :=
  ∀ p ∈ q, (p.1 :: p.2).Nodup ∧ ∀ x ∈ p.1 :: p.2, x ∈ A

theorem queueWeight_append (B N : Nat) (q1 q2 : List (α × List α)) :
    queueWeight B N (q1 ++ q2) = queueWeight B N q1 + queueWeight B N q2 := by
  simp [queueWeight]

theorem queueWeight_cons (B N : Nat) (p : α × List α)
    (q : List (α × List α)) :
    queueWeight B N (p :: q) = pathWeight B N p + queueWeight B N q := by
  simp [queueWeight]

theorem sum_map_const {γ : Type} (l : List γ) (c : Nat) :
    (l.map (fun _ => c)).sum = l.length * c := by
  induction l with
  | nil => simp
  | cons x l ih => simp [ih, Nat.succ_mul, Nat.add_comm]

theorem nodup_length_le_dedup {A l : List α} (hnd : l.Nodup)
    (hsub : ∀ x ∈ l, x ∈ A) : l.length ≤ A.dedup.length :=
  List.Subperm.length_le
    (hnd.subperm (fun x hx => List.mem_dedup.mpr (hsub x hx)))

theorem queueWeight_extsOf_lt {B N : Nat} {front : α} {rest opts : List α}
    {A : List α} (hB : opts.length ≤ B) (hnd : (front :: rest).Nodup)
    (hsub : ∀ x ∈ front :: rest, x ∈ A) (hopts : ∀ n ∈ opts, n ∈ A)
    (hN : N = A.dedup.length) :
    queueWeight B N (extsOf front rest opts) <
      pathWeight B N (front, rest) := by
  set L := (front :: rest).length with hL
  have hw : queueWeight B N (extsOf front rest opts) =
      (opts.filter (fun n => decide (n ∉ front :: rest))).length *
        (B + 1) ^ (N - (L + 1)) := by
    unfold queueWeight extsOf
    rw [List.map_map]
    have : ((opts.filter (fun n => decide (n ∉ front :: rest))).map
        (pathWeight B N ∘ fun n => (n, front :: rest))) =
        (opts.filter (fun n => decide (n ∉ front :: rest))).map
          (fun _ => (B + 1) ^ (N - (L + 1))) := by
      apply List.map_congr_left
      intro n _
      simp [pathWeight, Function.comp, hL]
    rw [this, sum_map_const]
  rw [hw]
  have hpw : pathWeight B N (front, rest) = (B + 1) ^ (N - L) := rfl
  rw [hpw]
  by_cases hfil : opts.filter (fun n => decide (n ∉ front :: rest)) = []
  · rw [hfil]
    simp only [List.length_nil, Nat.zero_mul]
    exact Nat.pos_pow_of_pos _ (Nat.succ_pos B)
  · obtain ⟨m, ms, hms⟩ := List.exists_cons_of_ne_nil hfil
    have hm : m ∈ opts.filter (fun n => decide (n ∉ front :: rest)) := by
      rw [hms]; exact List.mem_cons_self _ _
    rw [List.mem_filter] at hm
    have hmo : m ∈ opts := hm.1
    have hmnot : m ∉ front :: rest := of_decide_eq_true hm.2
    have hLN : L + 1 ≤ N := by
      rw [hN]
      have hnd' : (m :: front :: rest).Nodup :=
        List.nodup_cons.mpr ⟨hmnot, hnd⟩
      have hs : ∀ x ∈ m :: front :: rest, x ∈ A := by
        intro x hx
        rcases List.mem_cons.mp hx with rfl | hx'
        · exact hopts _ hmo
        · exact hsub x hx'
      simpa using nodup_length_le_dedup hnd' hs
    have hflen :
        (opts.filter (fun n => decide (n ∉ front :: rest))).length ≤ B :=
      le_trans (List.length_filter_le _ _) hB
    calc (opts.filter (fun n => decide (n ∉ front :: rest))).length *
          (B + 1) ^ (N - (L + 1))
        ≤ B * (B + 1) ^ (N - (L + 1)) :=
          Nat.mul_le_mul_right _ hflen
      _ < (B + 1) * (B + 1) ^ (N - (L + 1)) :=
          (Nat.mul_lt_mul_right
            (Nat.pos_pow_of_pos _ (Nat.succ_pos B))).mpr
            (Nat.lt_succ_self B)
      _ = (B + 1) ^ (N - (L + 1) + 1) := by rw [Nat.pow_succ, Nat.mul_comm]
      _ = (B + 1) ^ (N - L) := by
          congr 1
          omega

theorem length_bucket_le {γ δ : Type} (l : List (γ × List δ)) (p : γ × List δ)
    (hp : p ∈ l) : p.2.length ≤ ((l.map Prod.snd).flatten).length := by
  induction l with
  | nil => cases hp
  | cons q l ih =>
    rcases List.mem_cons.mp hp with rfl | hp'
    · simp
    · simp only [List.map_cons, List.flatten_cons, List.length_append]
      exact le_trans (ih hp') (Nat.le_add_left _ _)

theorem opts_length_le {g : Graph α} (front : α) :
    ((dictGet g.edges front []).map Edge.«end»).length ≤
      (get_all_edges g).length := by
  rw [List.length_map, get_all_edges_eq]
  by_cases h : dictGet g.edges front [] = ([] : List (Edge α))
  · rw [h]; exact Nat.zero_le _
  · obtain ⟨p, hp, _, he⟩ := dictGet_mem h
    rw [he]
    exact length_bucket_le _ _ hp

theorem opts_mem_ends {g : Graph α} {front n : α}
    (h : n ∈ (dictGet g.edges front []).map Edge.«end») :
    n ∈ (get_all_edges g).map Edge.«end» := by
  obtain ⟨e, he, rfl⟩ := List.mem_map.mp h
  obtain ⟨p, hp, _, hep⟩ := mem_dictGet_edges he
  exact List.mem_map.mpr ⟨e, mem_get_all_edges.mpr ⟨p, hp, hep⟩, rfl⟩

theorem pathExistsLoop_total {g : Graph α} {endN : α} {A : List α}
    {B N : Nat} (hA : ∀ x ∈ (get_all_edges g).map Edge.«end», x ∈ A)
    (hB : B = (get_all_edges g).length) (hN : N = A.dedup.length) :
    ∀ fuel q, QInv A q → queueWeight B N q < fuel →
      (pathExistsLoop g endN fuel q).isSome := by
  intro fuel
  induction fuel with
  | zero => intro q _ hw; exact absurd hw (Nat.not_lt_zero _)
  | succ fuel ih =>
    intro q hq hw
    match q with
    | [] => simp [pathExistsLoop]
    | (front, rest) :: tl =>
      rw [pathExistsLoop]
      cases hscan : scanOptions endN front rest
          ((dictGet g.edges front []).map Edge.«end») tl with
      | mk fst snd =>
        cases fst with
        | some p => simp
        | none =>
          simp only
          obtain ⟨_, rfl⟩ := scanOptions_none_inv hscan
          obtain ⟨hnd0, hsubA0⟩ := hq _ (List.mem_cons_self _ _)
          have hnd : (front :: rest).Nodup := hnd0
          have hsubA : ∀ x ∈ front :: rest, x ∈ A := hsubA0
          apply ih
          · intro p hp
            rcases List.mem_append.mp hp with hp' | hp'
            · exact hq p (List.mem_cons_of_mem _ hp')
            · obtain ⟨n, hno, hnnot, rfl⟩ := mem_extsOf hp'
              refine ⟨List.nodup_cons.mpr ⟨hnnot, hnd⟩, ?_⟩
              intro x hx
              rcases List.mem_cons.mp hx with rfl | hx'
              · exact hA x (opts_mem_ends hno)
              · exact hsubA x hx'
          · have hxlt := queueWeight_extsOf_lt
              (hB ▸ opts_length_le front) hnd hsubA
              (fun n hn => hA n (opts_mem_ends hn)) hN
            have hstep : queueWeight B N (tl ++ extsOf front rest
                ((dictGet g.edges front []).map Edge.«end»)) <
                queueWeight B N ((front, rest) :: tl) := by
              rw [queueWeight_append, queueWeight_cons]
              omega
            have hle : queueWeight B N ((front, rest) :: tl) ≤ fuel :=
              Nat.lt_succ_iff.mp hw
            exact Nat.lt_of_lt_of_le hstep hle

/-- The queue weight of the initial worklist `[[start]]` is one less than
`graphFuel`, so the loop always finishes within the fuel that
`path_exists` supplies. -/
theorem pathExistsLoop_graphFuel_isSome (g : Graph α) (start endN : α) :
    (pathExistsLoop g endN (graphFuel g start) [(start, [])]).isSome := by
  apply @pathExistsLoop_total α _ g endN
      (start :: (get_all_edges g).map Edge.«end»)
      ((get_all_edges g).length)
      ((start :: (get_all_edges g).map Edge.«end»).dedup.length)
      (fun x hx => List.mem_cons_of_mem _ hx) rfl rfl
  · intro p hp
    rcases List.mem_cons.mp hp with rfl | hp'
    · refine ⟨List.nodup_singleton _, ?_⟩
      intro x hx
      obtain rfl := List.mem_singleton.mp hx
      exact List.mem_cons_self _ _
    · cases hp'
  · show queueWeight _ _ [(start, [])] < graphFuel g start
    rw [queueWeight_cons]
    simp only [queueWeight, List.map_nil, List.sum_nil, Nat.add_zero,
      pathWeight, graphFuel, List.length_cons, List.length_nil]
    exact Nat.lt_succ_self _

/-! ### Soundness of the search loop: returned paths are real paths -/

/-- The edge relation the traversal consults: some edge in the bucket for
`a` ends at `b`. -/
def BucketEdge (g : Graph α) (a b : α) : Prop :=
  ∃ e ∈ dictGet g.edges a [], (e : Edge α).«end» = b

theorem bucketEdge_of_opt {g : Graph α} {front n : α}
    (h : n ∈ (dictGet g.edges front []).map Edge.«end») :
    BucketEdge g front n := by
  obtain ⟨e, he, rfl⟩ := List.mem_map.mp h
  exact ⟨e, he, rfl⟩

/-- Under the reachable-state invariant, a bucket edge is a stored edge
with matching endpoints. -/
theorem hasEdge_of_bucketEdge {g : Graph α} (hwf : StateWF g) {a b : α}
    (h : BucketEdge g a b) : HasEdge g a b := by
  obtain ⟨e, he, rfl⟩ := h
  obtain ⟨p, hp, hpk, hep⟩ := mem_dictGet_edges he
  obtain ⟨hstart, _, _⟩ := hwf.2.2 p hp e hep
  exact ⟨e, mem_get_all_edges.mpr ⟨p, hp, hep⟩, hstart.trans hpk, rfl⟩

/-- Soundness invariant for the worklist: every queued partial path
(stored newest-node-first) ends at the search start, repeats no node, and
each stored node was reached by a bucket edge from its successor in the
list. -/
def SInv (g : Graph α) (s : α) (q : List (α × List α)) : Prop :=
  ∀ p ∈ q, (p.1 :: p.2).getLast? = some s ∧ (p.1 :: p.2).Nodup ∧
    List.Chain' (fun a b => BucketEdge g b a) (p.1 :: p.2)

theorem pathExistsLoop_sound {g : Graph α} {endN s : α} :
    ∀ (fuel : Nat) (q : List (α × List α)), SInv g s q →
      ∀ {p : List α}, pathExistsLoop g endN fuel q = some (some p) →
        ∃ front rest, p = (front :: rest).reverse ∧
          (front :: rest).getLast? = some s ∧ (front :: rest).Nodup ∧
          List.Chain' (fun a b => BucketEdge g b a) (front :: rest) ∧
          BucketEdge g front endN := by
  intro fuel
  induction fuel with
  | zero => intro q _ p h; simp [pathExistsLoop] at h
  | succ fuel ih =>
    intro q hq p h
    match q with
    | [] => simp [pathExistsLoop] at h
    | (front, rest) :: tl =>
      rw [pathExistsLoop] at h
      cases hscan : scanOptions endN front rest
          ((dictGet g.edges front []).map Edge.«end») tl with
      | mk fst snd =>
        rw [hscan] at h
        cases fst with
        | some p0 =>
          simp only [Option.some.injEq] at h
          obtain ⟨hp0, hend⟩ := scanOptions_found_inv hscan
          obtain ⟨hlast0, hnd0, hch0⟩ := hq _ (List.mem_cons_self _ _)
          refine ⟨front, rest, ?_, hlast0, hnd0, hch0,
            bucketEdge_of_opt hend⟩
          rw [← h, hp0]
        | none =>
          simp only at h
          obtain ⟨_, rfl⟩ := scanOptions_none_inv hscan
          obtain ⟨hlast0, hnd0, hch0⟩ := hq _ (List.mem_cons_self _ _)
          have hlast : (front :: rest).getLast? = some s := hlast0
          have hnd : (front :: rest).Nodup := hnd0
          have hch : List.Chain' (fun a b => BucketEdge g b a)
              (front :: rest) := hch0
          refine ih _ ?_ h
          intro p' hp'
          rcases List.mem_append.mp hp' with hp'' | hp''
          · exact hq p' (List.mem_cons_of_mem _ hp'')
          · obtain ⟨n, hno, hnnot, rfl⟩ := mem_extsOf hp''
            refine ⟨?_, List.nodup_cons.mpr ⟨hnnot, hnd⟩, ?_⟩
            · rw [List.getLast?_cons_cons]; exact hlast
            · exact List.chain'_cons.mpr ⟨bucketEdge_of_opt hno, hch⟩

/-- What `path_exists g s e = some p` yields before any well-formedness
assumption: `p` is the reverse of a queued partial path that reaches a
bucket edge into `e`. -/
theorem path_exists_some_inv {g : Graph α} {s endN : α} {p : List α}
    (h : path_exists g s endN = some p) :
    ∃ front rest, p = (front :: rest).reverse ∧
      (front :: rest).getLast? = some s ∧ (front :: rest).Nodup ∧
      List.Chain' (fun a b => BucketEdge g b a) (front :: rest) ∧
      BucketEdge g front endN := by
  have hterm := pathExistsLoop_graphFuel_isSome g s endN
  obtain ⟨r, hrr⟩ := Option.isSome_iff_exists.mp hterm
  rw [path_exists, hrr] at h
  simp only [Option.getD_some] at h
  subst h
  refine pathExistsLoop_sound (graphFuel g s) [(s, [])] ?_ hrr
  intro p' hp'
  obtain rfl := List.mem_singleton.mp hp'
  exact ⟨rfl, List.nodup_singleton _, List.chain'_singleton _⟩

/-- Walk a `Chain'` of a relation that embeds into `S` from the head of
the list to its last element, producing `ReflTransGen S`. -/
theorem reflTransGen_of_chain {R S : α → α → Prop}
    (hRS : ∀ a b, R a b → S a b) :
    ∀ (p : List α) {x y : α}, List.Chain' R p → p.head? = some x →
      p.getLast? = some y → Relation.ReflTransGen S x y := by
  intro p
  induction p with
  | nil => intro x y _ hx _; cases hx
  | cons a p ih =>
    intro x y hch hx hy
    have hax : a = x := by simpa using hx
    cases p with
    | nil =>
      have hay : a = y := by simpa using hy
      rw [← hax, ← hay]
    | cons b p' =>
      have hR : R a b := (List.chain'_cons.mp hch).1
      have hch' := (List.chain'_cons.mp hch).2
      have hy' : (b :: p').getLast? = some y := by
        rw [List.getLast?_cons_cons] at hy; exact hy
      rw [← hax]
      exact Relation.ReflTransGen.head (hRS _ _ hR) (ih hch' rfl hy')

theorem undirAdj_symm {g : Graph α} {a b : α} (h : UndirAdj g a b) :
    UndirAdj g b a := h.elim Or.inr Or.inl

theorem undirConnected_symm {g : Graph α} {a b : α}
    (h : UndirConnected g a b) : UndirConnected g b a :=
  Relation.ReflTransGen.symmetric (fun _ _ => undirAdj_symm) h

/-- A successful `path_exists` call witnesses weak connectivity. -/
theorem undirConn_of_path_exists {g : Graph α} (hr : Reachable g)
    {a b : α} (h : (path_exists g a b).isSome) : UndirConnected g a b := by
  obtain ⟨p, hp⟩ := Option.isSome_iff_exists.mp h
  obtain ⟨front, rest, _, hlast, _, hch, hedge⟩ := path_exists_some_inv hp
  have hwf := stateWF_of_reachable hr
  have h1 : Relation.ReflTransGen (UndirAdj g) front a :=
    reflTransGen_of_chain
      (fun u v huv => Or.inr (hasEdge_of_bucketEdge hwf huv))
      (front :: rest) hch rfl hlast
  exact Relation.ReflTransGen.tail (undirConnected_symm h1)
    (Or.inl (hasEdge_of_bucketEdge hwf hedge))

/-! ### Structure of show_subgraphs -/

theorem connectsToGroup_exists {g : Graph α} {x : α} {grp : List α}
    (h : connectsToGroup g x grp = true) :
    ∃ n2 ∈ grp, (path_exists g x n2).isSome = true ∨
      (path_exists g n2 x).isSome = true := by
  unfold connectsToGroup at h
  obtain ⟨n2, hn2, hb⟩ := List.any_eq_true.mp h
  exact ⟨n2, hn2, Bool.or_eq_true _ _ ▸ hb⟩

theorem addToGroups_some_inv {g : Graph α} {x : α} :
    ∀ {ans ans' : List (List α)}, addToGroups g x ans = some ans' →
      ∃ pre grp post, ans = pre ++ grp :: post ∧
        ans' = pre ++ (grp ++ [x]) :: post ∧
        connectsToGroup g x grp = true := by
  intro ans
  induction ans with
  | nil => intro ans' h; simp [addToGroups] at h
  | cons grp rest ih =>
    intro ans' h
    rw [addToGroups] at h
    by_cases hc : connectsToGroup g x grp
    · rw [if_pos hc] at h
      obtain rfl := Option.some.inj h
      exact ⟨[], grp, rest, rfl, rfl, hc⟩
    · rw [if_neg hc] at h
      cases hrec : addToGroups g x rest with
      | none => rw [hrec] at h; cases h
      | some rest' =>
        rw [hrec] at h
        obtain rfl := Option.some.inj h
        obtain ⟨pre, grp0, post, h1, h2, h3⟩ := ih hrec
        exact ⟨grp :: pre, grp0, post, by rw [List.cons_append, h1],
          by rw [List.cons_append, h2], h3⟩

theorem flatten_subgraphStep (g : Graph α) (ans : List (List α))
    (n1 : Node α) :
    (subgraphStep g ans n1).flatten.Perm (ans.flatten ++ [n1.name]) := by
  unfold subgraphStep
  cases hadd : addToGroups g n1.name ans with
  | none => simp
  | some ans' =>
    obtain ⟨pre, grp, post, rfl, rfl, _⟩ := addToGroups_some_inv hadd
    simp only [List.flatten_append, List.flatten_cons, List.append_assoc]
    refine List.Perm.append_left _ ?_
    refine List.Perm.append_left _ ?_
    exact List.perm_append_comm

theorem flatten_foldl_subgraphStep (g : Graph α) :
    ∀ (ns : List (Node α)) (acc : List (List α)),
      ((ns.foldl (subgraphStep g) acc).flatten).Perm
        (acc.flatten ++ ns.map Node.name) := by
  intro ns
  induction ns with
  | nil => intro acc; simp
  | cons n ns ih =>
    intro acc
    rw [List.foldl_cons]
    refine (ih (subgraphStep g acc n)).trans ?_
    refine (List.Perm.append_right _ (flatten_subgraphStep g acc n)).trans ?_
    rw [List.append_assoc, List.singleton_append, List.map_cons]

theorem flatten_show_subgraphs_perm (g : Graph α) :
    (show_subgraphs g).flatten.Perm ((get_all_nodes g).map Node.name) := by
  have h := flatten_foldl_subgraphStep g (get_all_nodes g) []
  simpa [show_subgraphs] using h

theorem names_eq_keys {g : Graph α} (hwf : StateWF g) :
    (get_all_nodes g).map Node.name = g.nodes.map Prod.fst := by
  unfold get_all_nodes
  rw [List.map_map]
  apply List.map_congr_left
  intro p hp
  exact hwf.2.1 p hp

/-- Every group built so far has pairwise weakly connected members. -/
def GroupsConn (g : Graph α) (ans : List (List α)) : Prop :=
  ∀ grp ∈ ans, ∀ a ∈ grp, ∀ b ∈ grp, UndirConnected g a b

theorem groupsConn_subgraphStep {g : Graph α} (hr : Reachable g)
    {ans : List (List α)} (h : GroupsConn g ans) (n1 : Node α) :
    GroupsConn g (subgraphStep g ans n1) := by
  unfold subgraphStep
  cases hadd : addToGroups g n1.name ans with
  | none =>
    intro grp hgrp a ha b hb
    rcases List.mem_append.mp hgrp with hg | hg
    · exact h grp hg a ha b hb
    · obtain rfl := List.mem_singleton.mp hg
      obtain rfl := List.mem_singleton.mp ha
      obtain rfl := List.mem_singleton.mp hb
      exact Relation.ReflTransGen.refl
  | some ans' =>
    obtain ⟨pre, grp0, post, rfl, rfl, hc⟩ := addToGroups_some_inv hadd
    obtain ⟨n2, hn2, hpe⟩ := connectsToGroup_exists hc
    have hxn2 : UndirConnected g n1.name n2 := by
      rcases hpe with hpe | hpe
      · exact undirConn_of_path_exists hr hpe
      · exact undirConnected_symm (undirConn_of_path_exists hr hpe)
    have hgrp0 : ∀ a ∈ grp0, ∀ b ∈ grp0, UndirConnected g a b :=
      h grp0 (by exact List.mem_append.mpr (Or.inr (List.mem_cons_self _ _)))
    have hxa : ∀ a ∈ grp0, UndirConnected g n1.name a := by
      intro a ha
      exact Relation.ReflTransGen.trans hxn2 (hgrp0 n2 hn2 a ha)
    intro grp hgrp a ha b hb
    rcases List.mem_append.mp hgrp with hg | hg
    · exact h grp (List.mem_append.mpr (Or.inl hg)) a ha b hb
    rcases List.mem_cons.mp hg with rfl | hg'
    · rcases List.mem_append.mp ha with ha' | ha' <;>
        rcases List.mem_append.mp hb with hb' | hb'
      · exact hgrp0 a ha' b hb'
      · obtain rfl := List.mem_singleton.mp hb'
        exact undirConnected_symm (hxa a ha')
      · obtain rfl := List.mem_singleton.mp ha'
        exact hxa b hb'
      · obtain rfl := List.mem_singleton.mp ha'
        obtain rfl := List.mem_singleton.mp hb'
        exact Relation.ReflTransGen.refl
    · exact h grp
        (List.mem_append.mpr (Or.inr (List.mem_cons_of_mem _ hg'))) a ha b hb

theorem groupsConn_foldl {g : Graph α} (hr : Reachable g) :
    ∀ (ns : List (Node α)) (acc : List (List α)), GroupsConn g acc →
      GroupsConn g (ns.foldl (subgraphStep g) acc) := by
  intro ns
  induction ns with
  | nil => intro acc h; exact h
  | cons n ns ih =>
    intro acc h
    rw [List.foldl_cons]
    exact ih _ (groupsConn_subgraphStep hr h n)

theorem groupsConn_show_subgraphs {g : Graph α} (hr : Reachable g) :
    GroupsConn g (show_subgraphs g) := by
  unfold show_subgraphs
  refine groupsConn_foldl hr _ [] ?_
  intro grp hgrp
  cases hgrp

/-- `add_node` always leaves the inserted (or already present) name among
the stored keys. -/
theorem mem_keys_add_node (g : Graph α) (n : Node α) (u : Bool) :
    n.name ∈ (add_node g n u).nodes.map Prod.fst := by
  unfold add_node
  by_cases hc : n.name ∈ g.nodes.map Prod.fst ∧ ¬ u
  · rw [if_pos hc]; exact hc.1
  · rw [if_neg hc]
    exact mem_keys_dictUpdate.mpr (Or.inr rfl)

/-- Rejected node insert: name already stored and updates not allowed. -/
theorem add_node_reject {g : Graph α} {n : Node α}
    (h : n.name ∈ g.nodes.map Prod.fst) : add_node g n false = g := by
  unfold add_node
  rw [if_pos ⟨h, by simp⟩]

/-- Rejected edge insert: a missing endpoint leaves the graph unchanged. -/
theorem add_edge_reject {g : Graph α} {e : Edge α}
    (h : e.start ∉ g.nodes.map Prod.fst ∨
      e.«end» ∉ g.nodes.map Prod.fst) : add_edge g e = g := by
  unfold add_edge
  by_cases hs : e.start ∉ g.nodes.map Prod.fst
  · rw [if_pos hs]
  · rcases h with h | h
    · exact absurd h hs
    · rw [if_neg hs, if_pos h]

instance sameGroupDecidable (gs : List (List α)) (a b : α) :
    Decidable (SameGroup gs a b) :=
  inferInstanceAs (Decidable (∃ grp ∈ gs, a ∈ grp ∧ b ∈ grp))

example : path_exists G1 0 3 = some [0, 1, 2] := by decide
example : path_exists G1 3 0 = some [3] := by decide
example : path_exists G1 4 6 = none := by decide
example : path_exists G2 8 8 = none := by decide
example : show_subgraphs G1 = [[0, 1, 2, 3], [4, 5, 6]] := by decide
example : show_subgraphs CG = [[0, 2], [1]] := by decide

/-! ## The claims -/

/-- C1: the claim says a found path is returned start-to-end inclusive of
both endpoints, visiting 0, 1, 2, 3 for `path_exists(0, 3)` on the first
fixture.  The code instead returns the accumulated partial path without
ever appending `end`: on `G1` the call returns `[0, 1, 2]`, omitting the
endpoint 3, contradicting the source's own comment that the reversed
list "reads start -> end".  This theorem evaluates the code at that
failing input. -/
theorem claim_C1_path_omits_endpoint :
    path_exists G1 0 3 = some [0, 1, 2] ∧ (3 : Nat) ∉ [0, 1, 2] :=
  ⟨by decide, by decide⟩

/-- C2 counterexample: in `CG` (edges 1→2 and 0→2) nodes 1 and 2 are
weakly connected, yet `show_subgraphs` returns `[[0, 2], [1]]`, placing
them in different groups, so "same group iff weakly connected" fails. -/
theorem claim_C2_counterexample :
    UndirConnected CG 1 2 ∧ show_subgraphs CG = [[0, 2], [1]] ∧
      ¬ SameGroup (show_subgraphs CG) 1 2 := by
  refine ⟨?_, by decide, by decide⟩
  exact Relation.ReflTransGen.single
    (Or.inl ⟨mkEdge 1 2, by decide, rfl, rfl⟩)

/-- C2 (amended): members of any one group returned by `show_subgraphs`
are pairwise weakly connected; the converse direction of the claimed
"iff" (weakly connected implies same group) is false, see the
counterexample. -/
theorem claim_C2_groups_weakly_connected (g : Graph α) (hr : Reachable g)
    (grp : List α) (hgrp : grp ∈ show_subgraphs g) (a b : α)
    (ha : a ∈ grp) (hb : b ∈ grp) : UndirConnected g a b :=
  groupsConn_show_subgraphs hr grp hgrp a ha b hb

theorem claim_C2_groups_weakly_connected_witness : UndirConnected G1 0 3 :=
  claim_C2_groups_weakly_connected G1 (reachable_graphInit _ _)
    [0, 1, 2, 3] (by decide) 0 3 (by decide) (by decide)

/-- C3: the groups returned by `show_subgraphs` cover every stored node
name exactly once: their concatenation is a permutation of the stored
names and contains no duplicates. -/
theorem claim_C3_partition (g : Graph α) (hr : Reachable g) :
    (show_subgraphs g).flatten.Perm ((get_all_nodes g).map Node.name) ∧
    (show_subgraphs g).flatten.Nodup := by
  have hperm := flatten_show_subgraphs_perm g
  have hwf := stateWF_of_reachable hr
  refine ⟨hperm, ?_⟩
  rw [hperm.nodup_iff, names_eq_keys hwf]
  exact hwf.1

theorem claim_C3_partition_witness :
    (show_subgraphs G1).flatten.Perm ((get_all_nodes G1).map Node.name) ∧
    (show_subgraphs G1).flatten.Nodup :=
  claim_C3_partition G1 (reachable_graphInit _ _)

/-- C4 counterexample: in `CG`, `path_exists(1, 2)` succeeds (edge 1→2),
yet 1 and 2 are not in the same group of `show_subgraphs()` — node 2
joined node 0's earlier group first. -/
theorem claim_C4_counterexample :
    (path_exists CG 1 2).isSome = true ∧
      ¬ SameGroup (show_subgraphs CG) 1 2 :=
  ⟨by decide, by decide⟩

/-- C4 (amended): a successful `path_exists(a, b)` or `path_exists(b, a)`
guarantees that `a` and `b` are weakly connected, but not that they share
a group of `show_subgraphs()` (see the counterexample). -/
theorem claim_C4_reachable_weakly_connected (g : Graph α)
    (hr : Reachable g) (a b : α)
    (h : (path_exists g a b).isSome = true ∨
      (path_exists g b a).isSome = true) : UndirConnected g a b := by
  rcases h with h | h
  · exact undirConn_of_path_exists hr h
  · exact undirConnected_symm (undirConn_of_path_exists hr h)

theorem claim_C4_reachable_weakly_connected_witness :
    UndirConnected G1 0 1 :=
  claim_C4_reachable_weakly_connected G1 (reachable_graphInit _ _) 0 1
    (Or.inl (by decide))

/-- C5: rejected mutations are exact no-ops: `add_node` on a present name
without the update flag and `add_edge` with a missing endpoint return the
graph unchanged (all four fields), and a second `add_node` with the same
name and no update flag is likewise a no-op. -/
theorem claim_C5_rejected_mutations (g g' : Graph α) (n n2 : Node α)
    (e : Edge α) (h1 : n.name ∈ g.nodes.map Prod.fst)
    (h2 : e.start ∉ g.nodes.map Prod.fst ∨
      e.«end» ∉ g.nodes.map Prod.fst)
    (h3 : n2.name = n.name) :
    add_node g n false = g ∧ add_edge g e = g ∧
    add_node (add_node g' n false) n2 false = add_node g' n false := by
  refine ⟨add_node_reject h1, add_edge_reject h2, add_node_reject ?_⟩
  rw [h3]
  exact mem_keys_add_node g' n false

theorem claim_C5_rejected_mutations_witness :
    add_node G1 ⟨0⟩ false = G1 ∧ add_edge G1 (mkEdge 0 99) = G1 ∧
    add_node (add_node G2 ⟨0⟩ false) ⟨0⟩ false = add_node G2 ⟨0⟩ false :=
  claim_C5_rejected_mutations G1 G2 ⟨0⟩ ⟨0⟩ (mkEdge 0 99) (by decide)
    (Or.inr (by decide)) rfl

/-- C6: in any graph reachable through the API (construction included,
via `reachable_graphInit`), every edge stored in any bucket has both its
start and its end present among the stored node keys. -/
theorem claim_C6_edge_endpoints_stored (g : Graph α) (hr : Reachable g) :
    ∀ p ∈ g.edges, ∀ e ∈ p.2,
      (e : Edge α).start ∈ g.nodes.map Prod.fst ∧
      e.«end» ∈ g.nodes.map Prod.fst := by
  intro p hp e he
  obtain ⟨_, h2, h3⟩ := (stateWF_of_reachable hr).2.2 p hp e he
  exact ⟨h2, h3⟩

theorem claim_C6_edge_endpoints_stored_witness :
    (mkEdge 0 1).start ∈ G1.nodes.map Prod.fst ∧
    (mkEdge 0 1).«end» ∈ G1.nodes.map Prod.fst :=
  claim_C6_edge_endpoints_stored G1 (reachable_graphInit _ _)
    (0, [mkEdge 0 1]) (by decide) (mkEdge 0 1) (by decide)

/-- C7: `add_node` with `allow_update = true` on a present key replaces
the stored Node, increments `num_nodes`, and leaves the node-map size,
the edge map and `num_edges` unchanged — so `num_nodes` can exceed the
number of stored nodes after such an overwrite. -/
theorem claim_C7_update_overwrite (g : Graph α) (n : Node α)
    (h : n.name ∈ g.nodes.map Prod.fst) :
    lookupNode (add_node g n true) n.name = some n ∧
    (add_node g n true).num_nodes = g.num_nodes + 1 ∧
    (add_node g n true).nodes.length = g.nodes.length ∧
    (add_node g n true).edges = g.edges ∧
    (add_node g n true).num_edges = g.num_edges ∧
    (g.nodes.length ≤ g.num_nodes →
      (add_node g n true).nodes.length < (add_node g n true).num_nodes) := by
  have hcond : ¬ (n.name ∈ g.nodes.map Prod.fst ∧ ¬ (true : Bool)) := by
    simp
  unfold add_node
  rw [if_neg hcond]
  refine ⟨?_, rfl, length_dictUpdate_mem n h, rfl, rfl, ?_⟩
  · show ((dictUpdate g.nodes n.name n).find?
      (fun p => p.1 = n.name)).map Prod.snd = some n
    rw [find?_dictUpdate]
    rfl
  · intro hle
    show (dictUpdate g.nodes n.name n).length < g.num_nodes + 1
    rw [length_dictUpdate_mem n h]
    omega

theorem claim_C7_update_overwrite_witness :
    lookupNode (add_node G1 ⟨3⟩ true) 3 = some ⟨3⟩ ∧
    (add_node G1 ⟨3⟩ true).nodes.length <
      (add_node G1 ⟨3⟩ true).num_nodes := by
  have h := claim_C7_update_overwrite G1 ⟨3⟩ (by decide)
  exact ⟨h.1, h.2.2.2.2.2 (by decide)⟩

/-- C8: `path_exists` terminates on every finite graph: with the fuel
`path_exists` supplies, the worklist loop always reaches a definite
answer (it never exhausts the fuel), because the per-path cycle guard
bounds each duplicate-free partial path by the number of distinct names
that can appear on it. -/
theorem claim_C8_termination (g : Graph α) (s endN : α) :
    ∃ res, pathExistsLoop g endN (graphFuel g s) [(s, [])] = some res ∧
      path_exists g s endN = res := by
  obtain ⟨res, hres⟩ := Option.isSome_iff_exists.mp
    (pathExistsLoop_graphFuel_isSome g s endN)
  exact ⟨res, hres, by unfold path_exists; rw [hres]; rfl⟩

/-- C9: there is no implicit empty-path self-reachability: in the second
fixture, node 8 has no self-edge (indeed no incident edge at all) and
`path_exists(8, 8)` returns the failure sentinel. -/
theorem claim_C9_no_implicit_self_path :
    ∃ (g : Graph Nat) (a : Nat), a ∈ g.nodes.map Prod.fst ∧
      (∀ e ∈ get_all_edges g, ¬ (e.start = a ∧ e.«end» = a)) ∧
      path_exists g a a = none :=
  ⟨G2, 8, by decide, by decide, by decide⟩

/-- C10: whenever `path_exists(start, end)` returns a list, the list
starts at `start`, repeats no node, follows stored edges consecutively,
and its last element has a stored edge to `end`. -/
theorem claim_C10_returned_path_is_path (g : Graph α) (hr : Reachable g)
    (s endN : α) (p : List α) (h : path_exists g s endN = some p) :
    p.head? = some s ∧ p.Nodup ∧ List.Chain' (HasEdge g) p ∧
    ∃ lastN, p.getLast? = some lastN ∧ HasEdge g lastN endN := by
  obtain ⟨front, rest, rfl, hlast, hnd, hch, hedge⟩ := path_exists_some_inv h
  have hwf := stateWF_of_reachable hr
  refine ⟨?_, ?_, ?_, ⟨front, ?_, hasEdge_of_bucketEdge hwf hedge⟩⟩
  · rw [List.head?_reverse]; exact hlast
  · exact List.nodup_reverse.mpr hnd
  · exact List.Chain'.imp (fun a b hab => hasEdge_of_bucketEdge hwf hab)
      (List.chain'_reverse.mpr hch)
  · rw [List.getLast?_reverse]; rfl

theorem claim_C10_returned_path_is_path_witness :
    ([0, 1, 2] : List Nat).head? = some 0 ∧
    ([0, 1, 2] : List Nat).Nodup ∧
    List.Chain' (HasEdge G1) [0, 1, 2] ∧
    ∃ lastN, ([0, 1, 2] : List Nat).getLast? = some lastN ∧
      HasEdge G1 lastN 3 :=
  claim_C10_returned_path_is_path G1 (reachable_graphInit _ _) 0 3
    [0, 1, 2] (by decide)

end MusicGraph
